import Mathlib

set_option maxHeartbeats 1000000

/-!
Verification of the process-supervisor core of simplx-toolkit.

The development shallowly embeds three source units:

* `internal/process/sanitize.go` — `sanitizeForLog`, the stateless byte-stream
  filter that keeps SGR escape sequences and normalizes carriage returns;
* `internal/process/logbuf.go` — `LogBuffer`, the bounded ring of log lines
  with lossy broadcast to subscribers;
* `internal/process/manager.go` — `ProcessManager` Stop/Start/Restart/Reconnect,
  modelled as a sequential state machine over an abstract process table,
  descriptor-file set and alive-PID set.

Byte strings are embedded as `List Nat` (Go strings and `[]byte` are byte
sequences); Go maps keyed by session name become association lists.
-/

/-! ## Sanitizer (`sanitize.go`) -/

/-- Byte class of the first CSI scanning loop in `sanitizeForLog`:
`data[j] >= 0x20 && data[j] <= 0x3f` (parameter and intermediate bytes). -/
def isCsiParam (b : Nat) : Bool := decide (0x20 ≤ b) && decide (b ≤ 0x3f)

/-- Byte class of the second CSI scanning loop:
`data[j] >= 0x20 && data[j] <= 0x2f` (intermediate bytes). -/
def isCsiInter (b : Nat) : Bool := decide (0x20 ≤ b) && decide (b ≤ 0x2f)

/-- CSI final byte test: `data[j] >= 0x40 && data[j] <= 0x7e`. -/
def isCsiFinal (b : Nat) : Bool := decide (0x40 ≤ b) && decide (b ≤ 0x7e)

/-- The OSC consumption loop of `sanitizeForLog`: starting right after
`ESC ]`, consume bytes until a BEL (`0x07`) or an `ESC \` pair terminates the
sequence; return the remaining input (the loop ends with `i = j`). -/
def oscSkip : List Nat → List Nat
  | [] => []
  | c :: r =>
    if c = 0x07 then r
    else if c = 0x1b then
      match r with
      | c2 :: r2 => if c2 = 0x5c then r2 else oscSkip r
      | [] => oscSkip r
    else oscSkip r

theorem oscSkip_length_le : ∀ l : List Nat, (oscSkip l).length ≤ l.length := by
  intro l
  induction l with
  | nil => simp [oscSkip]
  | cons c r ih =>
    simp only [oscSkip]
    split
    · simp
    · split
      · match r with
        | c2 :: r2 =>
          simp only
          split
          · simp only [List.length_cons]; omega
          · refine le_trans ih ?_; simp
        | [] => refine le_trans ih ?_; simp
      · refine le_trans ih ?_; simp

/-- The CSI branch of `sanitizeForLog`, starting right after `ESC [`:
skip parameter bytes, then intermediate bytes; if a final byte follows,
return the bytes this CSI contributes to the output (the whole sequence if
the final byte is `m`, nothing otherwise) together with the input after the
final byte.  If the scan runs off the end (or hits a non-final byte), the
code does `i += 2`, i.e. only `ESC [` is consumed: return the input right
after `ESC [` unchanged. -/
def csiSplit (tl2 : List Nat) : List Nat × List Nat :=
  let body1 := tl2.takeWhile isCsiParam
  let r1 := tl2.dropWhile isCsiParam
  let body2 := r1.takeWhile isCsiInter
  let r2 := r1.dropWhile isCsiInter
  match r2 with
  | f :: rest =>
    if isCsiFinal f then
      (if f = 0x6d then 0x1b :: 0x5b :: (body1 ++ body2) ++ [f] else [], rest)
    else ([], tl2)
  | [] => ([], tl2)

theorem csiSplit_snd_length_le (tl2 : List Nat) :
    (csiSplit tl2).2.length ≤ tl2.length := by
  simp only [csiSplit]
  have h1 : (tl2.dropWhile isCsiParam).length ≤ tl2.length :=
    (List.dropWhile_sublist _).length_le
  have h2 : ((tl2.dropWhile isCsiParam).dropWhile isCsiInter).length ≤
      (tl2.dropWhile isCsiParam).length := (List.dropWhile_sublist _).length_le
  split
  · next f rest heq =>
    have : (f :: rest).length ≤ tl2.length := by rw [← heq]; omega
    simp only [List.length_cons] at this
    split <;> simp <;> omega
  · simp

/-- Shallow embedding of `sanitizeForLog` (`sanitize.go`): strips terminal
control sequences, keeping SGR (final byte `m`) CSI sequences, dropping OSC
sequences and other two-byte escapes, and converting `\r\n` and standalone
`\r` to `\n`. -/
def sanitizeForLog (data : List Nat) : List Nat :=
  match data with
  | [] => []
  | b :: tl =>
    if b = 0x1b then
      match tl with
      | [] => [b]
      | next :: tl2 =>
        if next = 0x5b then
          (csiSplit tl2).1 ++ sanitizeForLog (csiSplit tl2).2
        else if next = 0x5d then
          sanitizeForLog (oscSkip tl2)
        else
          sanitizeForLog tl2
    else if b = 0x0d then
      match tl with
      | c :: tl2 =>
        if c = 0x0a then 0x0a :: sanitizeForLog tl2
        else 0x0a :: sanitizeForLog (c :: tl2)
      | [] => [0x0a]
    else
      b :: sanitizeForLog tl
termination_by data.length
decreasing_by
  all_goals simp_wf
  all_goals try omega
  · have := csiSplit_snd_length_le r
    omega
  · have := oscSkip_length_le r
    omega

theorem sanitizeForLog_nil : sanitizeForLog [] = [] := by
  rw [sanitizeForLog.eq_def]

theorem sanitizeForLog_esc_end : sanitizeForLog [0x1b] = [0x1b] := by
  rw [sanitizeForLog.eq_def]
  simp

theorem sanitizeForLog_csi (tl2 : List Nat) :
    sanitizeForLog (0x1b :: 0x5b :: tl2)
      = (csiSplit tl2).1 ++ sanitizeForLog (csiSplit tl2).2 := by
  rw [sanitizeForLog.eq_def]
  simp

theorem sanitizeForLog_osc (tl2 : List Nat) :
    sanitizeForLog (0x1b :: 0x5d :: tl2) = sanitizeForLog (oscSkip tl2) := by
  rw [sanitizeForLog.eq_def]
  simp

theorem sanitizeForLog_esc_other (next : Nat) (tl2 : List Nat)
    (h1 : next ≠ 0x5b) (h2 : next ≠ 0x5d) :
    sanitizeForLog (0x1b :: next :: tl2) = sanitizeForLog tl2 := by
  rw [sanitizeForLog.eq_def]
  simp [h1, h2]

theorem sanitizeForLog_crlf (tl2 : List Nat) :
    sanitizeForLog (0x0d :: 0x0a :: tl2) = 0x0a :: sanitizeForLog tl2 := by
  rw [sanitizeForLog.eq_def]
  simp

theorem sanitizeForLog_cr_end : sanitizeForLog [0x0d] = [0x0a] := by
  rw [sanitizeForLog.eq_def]
  simp

theorem sanitizeForLog_cr (c : Nat) (tl2 : List Nat) (h : c ≠ 0x0a) :
    sanitizeForLog (0x0d :: c :: tl2) = 0x0a :: sanitizeForLog (c :: tl2) := by
  rw [sanitizeForLog.eq_def]
  simp [h]

theorem sanitizeForLog_plain (b : Nat) (tl : List Nat)
    (h1 : b ≠ 0x1b) (h2 : b ≠ 0x0d) :
    sanitizeForLog (b :: tl) = b :: sanitizeForLog tl := by
  rw [sanitizeForLog.eq_def]
  simp only [if_neg h1, if_neg h2]

theorem takeWhile_all_append (p : Nat → Bool) (A R : List Nat)
    (hA : ∀ x ∈ A, p x = true) :
    (A ++ R).takeWhile p = A ++ R.takeWhile p := by
  induction A with
  | nil => simp
  | cons a A ih =>
    have ha : p a = true := hA a (by simp)
    simp only [List.cons_append, List.takeWhile_cons, ha, if_true]
    rw [ih (fun x hx => hA x (by simp [hx]))]

theorem dropWhile_all_append (p : Nat → Bool) (A R : List Nat)
    (hA : ∀ x ∈ A, p x = true) :
    (A ++ R).dropWhile p = R.dropWhile p := by
  induction A with
  | nil => simp
  | cons a A ih =>
    have ha : p a = true := hA a (by simp)
    simp only [List.cons_append, List.dropWhile_cons, ha, if_true]
    exact ih (fun x hx => hA x (by simp [hx]))

theorem isCsiParam_of_isCsiInter {b : Nat} (h : isCsiInter b = true) :
    isCsiParam b = true := by
  simp only [isCsiInter, isCsiParam, Bool.and_eq_true, decide_eq_true_eq] at *
  omega

theorem not_isCsiParam_of_final {f : Nat} (h : isCsiFinal f = true) :
    isCsiParam f = false := by
  simp only [isCsiFinal, isCsiParam, Bool.and_eq_true, decide_eq_true_eq,
    Bool.and_eq_false_iff, decide_eq_false_iff_not] at *
  omega

theorem not_isCsiInter_of_final {f : Nat} (h : isCsiFinal f = true) :
    isCsiInter f = false := by
  simp only [isCsiFinal, isCsiInter, Bool.and_eq_true, decide_eq_true_eq,
    Bool.and_eq_false_iff, decide_eq_false_iff_not] at *
  omega

/-- On a well-formed CSI body followed by a final byte, `csiSplit` consumes
exactly the sequence and keeps it iff the final byte is `m`. -/
theorem csiSplit_wf (body : List Nat) (f : Nat) (rest : List Nat)
    (hbody : ∀ b ∈ body, isCsiParam b = true) (hf : isCsiFinal f = true) :
    csiSplit (body ++ f :: rest)
      = (if f = 0x6d then 0x1b :: 0x5b :: body ++ [f] else [], rest) := by
  have h1 : (body ++ f :: rest).takeWhile isCsiParam = body := by
    rw [takeWhile_all_append _ _ _ hbody]
    simp [List.takeWhile_cons, not_isCsiParam_of_final hf]
  have h2 : (body ++ f :: rest).dropWhile isCsiParam = f :: rest := by
    rw [dropWhile_all_append _ _ _ hbody]
    simp [List.dropWhile_cons, not_isCsiParam_of_final hf]
  simp only [csiSplit, h1, h2, List.takeWhile_cons, List.dropWhile_cons,
    not_isCsiInter_of_final hf, Bool.false_eq_true, if_false, hf, if_true]
  simp

/-- A CSI whose parameter bytes run to the end of the input: the scan finds
no final byte, so only `ESC [` is consumed and the body is left in place. -/
theorem csiSplit_runoff (body : List Nat)
    (hbody : ∀ b ∈ body, isCsiParam b = true) :
    csiSplit body = ([], body) := by
  have h1 : body.dropWhile isCsiParam = [] := by
    rw [List.dropWhile_eq_nil_iff]
    exact hbody
  simp [csiSplit, h1]

/-- The bytes a CSI contributes to the output are either nothing or a full
SGR sequence `ESC [ body m` with `body` made of parameter bytes. -/
theorem csiSplit_shape (tl2 : List Nat) :
    (csiSplit tl2).1 = [] ∨
    ∃ body, (∀ b ∈ body, isCsiParam b = true) ∧
      (csiSplit tl2).1 = 0x1b :: 0x5b :: body ++ [0x6d] := by
  simp only [csiSplit]
  split
  · next f rest heq =>
    split
    · split
      · next hm =>
        right
        refine ⟨tl2.takeWhile isCsiParam ++
          (tl2.dropWhile isCsiParam).takeWhile isCsiInter, ?_, by simp [hm]⟩
        intro b hb
        rcases List.mem_append.mp hb with h | h
        · exact List.mem_takeWhile_imp h
        · exact isCsiParam_of_isCsiInter (List.mem_takeWhile_imp h)
      · left; rfl
    · left; rfl
  · left; rfl

/-- Input made purely of CSI parameter bytes passes through unchanged. -/
theorem sanitizeForLog_all_param (l : List Nat)
    (h : ∀ b ∈ l, isCsiParam b = true) : sanitizeForLog l = l := by
  induction l with
  | nil => exact sanitizeForLog_nil
  | cons b tl ih =>
    have hb := h b (by simp)
    simp only [isCsiParam, Bool.and_eq_true, decide_eq_true_eq] at hb
    rw [sanitizeForLog_plain b tl (by omega) (by omega)]
    rw [ih (fun x hx => h x (by simp [hx]))]

/-- Characterization of sanitizer output: no carriage return ever remains,
and an `ESC` remains only as the very last byte (the truncated-input case)
or as the opener of a kept SGR sequence. -/
inductive CleanLog : List Nat → Prop
  | nil : CleanLog []
  | escEnd : CleanLog [0x1b]
  | sgr (body rest : List Nat) (hb : ∀ b ∈ body, isCsiParam b = true)
      (h : CleanLog rest) : CleanLog (0x1b :: 0x5b :: body ++ 0x6d :: rest)
  | plain (b : Nat) (rest : List Nat) (h1 : b ≠ 0x1b) (h2 : b ≠ 0x0d)
      (h : CleanLog rest) : CleanLog (b :: rest)

theorem cleanLog_sanitizeForLog (l : List Nat) : CleanLog (sanitizeForLog l) := by
  have main : ∀ n (l : List Nat), l.length ≤ n → CleanLog (sanitizeForLog l) := by
    intro n
    induction n with
    | zero =>
      intro l hl
      have : l = [] := List.length_eq_zero.mp (Nat.le_zero.mp hl)
      subst this
      rw [sanitizeForLog_nil]
      exact CleanLog.nil
    | succ n ih =>
      intro l hl
      match l with
      | [] =>
        rw [sanitizeForLog_nil]; exact CleanLog.nil
      | b :: tl =>
        simp only [List.length_cons, Nat.succ_le_succ_iff] at hl
        by_cases hb : b = 0x1b
        · subst hb
          match tl with
          | [] => rw [sanitizeForLog_esc_end]; exact CleanLog.escEnd
          | next :: tl2 =>
            simp only [List.length_cons] at hl
            by_cases hn : next = 0x5b
            · subst hn
              rw [sanitizeForLog_csi]
              have hrec : CleanLog (sanitizeForLog (csiSplit tl2).2) :=
                ih _ (le_trans (csiSplit_snd_length_le tl2) (by omega))
              rcases csiSplit_shape tl2 with hsh | ⟨body, hbody, hsh⟩
              · rw [hsh]; simpa using hrec
              · rw [hsh]
                have : 0x1b :: 0x5b :: body ++ [0x6d] ++
                    sanitizeForLog (csiSplit tl2).2
                    = 0x1b :: 0x5b :: body ++
                      0x6d :: sanitizeForLog (csiSplit tl2).2 := by
                  simp
                rw [this]
                exact CleanLog.sgr body _ hbody hrec
            · by_cases hn2 : next = 0x5d
              · subst hn2
                rw [sanitizeForLog_osc]
                exact ih _ (le_trans (oscSkip_length_le tl2) (by omega))
              · rw [sanitizeForLog_esc_other next tl2 hn hn2]
                exact ih _ (by omega)
        · by_cases hb2 : b = 0x0d
          · subst hb2
            match tl with
            | [] =>
              rw [sanitizeForLog_cr_end]
              exact CleanLog.plain 0x0a [] (by omega) (by omega) CleanLog.nil
            | c :: tl2 =>
              simp only [List.length_cons] at hl
              by_cases hc : c = 0x0a
              · subst hc
                rw [sanitizeForLog_crlf]
                exact CleanLog.plain 0x0a _ (by omega) (by omega) (ih _ (by omega))
              · rw [sanitizeForLog_cr c tl2 hc]
                exact CleanLog.plain 0x0a _ (by omega) (by omega)
                  (ih _ (by simp only [List.length_cons]; omega))
          · rw [sanitizeForLog_plain b tl hb hb2]
            exact CleanLog.plain b _ hb hb2 (ih _ (by omega))
  exact main l.length l le_rfl

theorem sanitizeForLog_of_cleanLog {l : List Nat} (h : CleanLog l) :
    sanitizeForLog l = l := by
  induction h with
  | nil => exact sanitizeForLog_nil
  | escEnd => exact sanitizeForLog_esc_end
  | sgr body rest hb _ ih =>
    have hres : (0x1b :: 0x5b :: body) ++ 0x6d :: rest
        = 0x1b :: 0x5b :: (body ++ 0x6d :: rest) := by simp
    rw [hres, sanitizeForLog_csi, csiSplit_wf body 0x6d rest hb (by decide)]
    simp [ih]
  | plain b rest h1 h2 _ ih =>
    rw [sanitizeForLog_plain b rest h1 h2, ih]

/-- C2 (amended). A well-formed CSI sequence `ESC [ body f` (parameter and
intermediate bytes in `0x20..0x3F`, which subsumes the claimed grammar of
parameter bytes `0x30..0x3F` followed by intermediate bytes `0x20..0x2F`,
final byte `f` in `0x40..0x7E`) is emitted in full exactly when `f = 'm'`
and contributes no bytes otherwise; a CSI whose body runs off the end of
the input loses only its `ESC [` introducer — the trailing parameter bytes
are passed through to the output, not dropped. -/
theorem sanitizeForLog_csi_sgr_only (body : List Nat) (f : Nat) (rest : List Nat)
    (hbody : ∀ b ∈ body, 0x20 ≤ b ∧ b ≤ 0x3f)
    (hf : 0x40 ≤ f ∧ f ≤ 0x7e) :
    sanitizeForLog (0x1b :: 0x5b :: (body ++ f :: rest))
      = (if f = 0x6d then 0x1b :: 0x5b :: body ++ [f] else [])
          ++ sanitizeForLog rest
    ∧ sanitizeForLog (0x1b :: 0x5b :: body) = body := by
  have hb' : ∀ b ∈ body, isCsiParam b = true := by
    intro b hb
    have := hbody b hb
    simp only [isCsiParam, Bool.and_eq_true, decide_eq_true_eq]
    omega
  have hf' : isCsiFinal f = true := by
    simp only [isCsiFinal, Bool.and_eq_true, decide_eq_true_eq]
    omega
  constructor
  · rw [sanitizeForLog_csi, csiSplit_wf body f rest hb' hf']
  · rw [sanitizeForLog_csi, csiSplit_runoff body hb']
    simpa using sanitizeForLog_all_param body hb'

/-- C2 counterexample. The claim says a malformed CSI that runs off the end
of the input contributes no bytes to the output; on `ESC [ '1'` the code
drops only `ESC [` and emits the parameter byte `'1'`. -/
theorem sanitizeForLog_malformed_csi_not_dropped :
    sanitizeForLog [0x1b, 0x5b, 0x31] = [0x31]
    ∧ ([0x31] : List Nat) ≠ ([] : List Nat) := by
  constructor
  · show sanitizeForLog (0x1b :: 0x5b :: [0x31]) = [0x31]
    rw [sanitizeForLog_csi, csiSplit_runoff [0x31] (by decide)]
    simpa using sanitizeForLog_all_param [0x31] (by decide)
  · decide

/-- C2 witness: the amended theorem applied to the SGR-coloured sequence
`ESC [ 3 1 m` followed by a plain byte. -/
theorem sanitizeForLog_csi_sgr_only_witness :
    (∀ b ∈ [0x33, 0x31], 0x20 ≤ b ∧ b ≤ 0x3f)
    ∧ (0x40 ≤ 0x6d ∧ 0x6d ≤ 0x7e)
    ∧ (sanitizeForLog (0x1b :: 0x5b :: ([0x33, 0x31] ++ 0x6d :: [0x78]))
        = (if 0x6d = 0x6d then 0x1b :: 0x5b :: [0x33, 0x31] ++ [0x6d] else [])
            ++ sanitizeForLog [0x78]
       ∧ sanitizeForLog (0x1b :: 0x5b :: [0x33, 0x31]) = [0x33, 0x31]) :=
  ⟨by decide, by decide,
    sanitizeForLog_csi_sgr_only [0x33, 0x31] 0x6d [0x78] (by decide) (by decide)⟩

/-- C7. The sanitizer is idempotent: sanitizing already-sanitized output is
the identity. -/
theorem sanitizeForLog_idempotent (x : List Nat) :
    sanitizeForLog (sanitizeForLog x) = sanitizeForLog x :=
  sanitizeForLog_of_cleanLog (cleanLog_sanitizeForLog x)

/-! ## Log buffer (`logbuf.go`)

A `LogBuffer` holds completed lines (each a byte string), a `maxLines`
capacity, a monotone `total` counter, the subscriber channels (each a
bounded queue of pending lines, capacity 256 as allocated by `Subscribe`)
and the incomplete `partialLine` left by the last `Write` (the Go field
`partial`). -/

/-- Default ring capacity (`DefaultMaxLines`). -/
def DefaultMaxLines : Nat := 10000

/-- Capacity of a subscriber channel (`make(chan string, 256)`). -/
def subChanCap : Nat := 256

structure LogBuffer where
  lines : List (List Nat)
  maxLines : Nat
  total : Nat
  subs : List (List (List Nat))
  partialLine : List Nat
deriving DecidableEq, Repr

/-- `NewLogBuffer`: non-positive capacities fall back to `DefaultMaxLines`. -/
def NewLogBuffer (maxLines : Int) : LogBuffer :=
  { lines := []
    maxLines := if maxLines ≤ 0 then DefaultMaxLines else maxLines.toNat
    total := 0
    subs := []
    partialLine := [] }

/-- The non-blocking fan-out inside `appendLine`: a `select`/`default` send
delivers `line` to a subscriber channel exactly when it has free capacity
and silently drops it otherwise. -/
def publishLine (subs : List (List (List Nat))) (line : List Nat) :
    List (List (List Nat)) :=
  subs.map fun ch => if ch.length < subChanCap then ch ++ [line] else ch

/-- `LogBuffer.appendLine`: when the ring is full, shift left (dropping the
oldest line) and truncate to `maxLines - 1` before appending; then bump
`total` and publish to every subscriber. -/
def LogBuffer.appendLine (lb : LogBuffer) (line : List Nat) : LogBuffer :=
  { lb with
    lines :=
      (if lb.maxLines ≤ lb.lines.length
        then (lb.lines.drop 1).take (lb.maxLines - 1)
        else lb.lines) ++ [line]
    total := lb.total + 1
    subs := publishLine lb.subs line }

/-- `strings.Split(data, "\n")`: the list of `\n`-separated segments of a
byte string; never empty, and the last segment is the tail after the final
newline (empty if the string ends in `\n`). -/
def splitOnNL : List Nat → List (List Nat)
  | [] => [[]]
  | c :: cs =>
    if c = 0x0a then [] :: splitOnNL cs
    else
      match splitOnNL cs with
      | [] => [[c]]
      | s :: ss => (c :: s) :: ss

/-- `LogBuffer.Write`: prepend the leftover partial line, split on `\n`,
append every segment but the last as a completed line, and keep the last
segment as the new partial line.  Returns `len(p)` (and a nil error). -/
def LogBuffer.Write (lb : LogBuffer) (p : List Nat) : LogBuffer × Nat :=
  let data := lb.partialLine ++ p
  let parts := splitOnNL data
  let lb1 := parts.dropLast.foldl LogBuffer.appendLine { lb with partialLine := [] }
  let last := parts.getLastD []
  ({ lb1 with partialLine := if last ≠ [] then last else lb1.partialLine },
    p.length)

/-- `LogBuffer.Flush`: append any non-empty partial line as a completed
line and clear it. -/
def LogBuffer.Flush (lb : LogBuffer) : LogBuffer :=
  if lb.partialLine ≠ [] then
    { lb.appendLine lb.partialLine with partialLine := [] }
  else lb

/-- `LogBuffer.Lines`: all completed lines plus the partial line (if any)
as a trailing element. -/
def LogBuffer.Lines (lb : LogBuffer) : List (List Nat) :=
  lb.lines ++ if lb.partialLine ≠ [] then [lb.partialLine] else []

/-- `LogBuffer.Tail`: the last `n` completed lines (`n` is a Go `int` and
may be non-positive). -/
def LogBuffer.Tail (lb : LogBuffer) (n : Int) : List (List Nat) :=
  if n ≤ 0 then []
  else if (lb.lines.length : Int) ≤ n then lb.lines
  else lb.lines.drop (lb.lines.length - n.toNat)

/-- `LogBuffer.Subscribe`: register a fresh empty channel of capacity 256;
returns the updated buffer and the channel's index in the registry. -/
def LogBuffer.Subscribe (lb : LogBuffer) : LogBuffer × Nat :=
  ({ lb with subs := lb.subs ++ [[]] }, lb.subs.length)

/-- `LogBuffer.Content`: completed lines joined by `\n`; a non-empty
partial line is appended after a separating `\n` when the joined part is
non-empty. -/
def LogBuffer.Content (lb : LogBuffer) : List Nat :=
  let buf := List.intercalate [0x0a] lb.lines
  if lb.partialLine ≠ [] then
    buf ++ (if 0 < buf.length then [0x0a] else []) ++ lb.partialLine
  else buf

/-- `LogBuffer.Len`: number of completed lines. -/
def LogBuffer.Len (lb : LogBuffer) : Nat := lb.lines.length

/-- Splitting a byte string on newlines, as the pair (completed segments,
trailing fragment after the last newline);
`splitOnNL s = (splitNL s).1 ++ [(splitNL s).2]`. -/
def splitNL : List Nat → List (List Nat) × List Nat
  | [] => ([], [])
  | c :: cs =>
    let r := splitNL cs
    if c = 0x0a then ([] :: r.1, r.2)
    else
      match r.1 with
      | [] => ([], c :: r.2)
      | l :: ls => ((c :: l) :: ls, r.2)

theorem splitOnNL_eq_splitNL (l : List Nat) :
    splitOnNL l = (splitNL l).1 ++ [(splitNL l).2] := by
  induction l with
  | nil => rfl
  | cons c cs ih =>
    simp only [splitOnNL, splitNL]
    by_cases hc : c = 0x0a
    · simp [hc, ih]
    · simp only [hc, if_false, ite_false]
      rw [ih]
      cases h1 : (splitNL cs).1 with
      | nil => simp [h1]
      | cons s ss => simp [h1]

theorem splitOnNL_dropLast (l : List Nat) :
    (splitOnNL l).dropLast = (splitNL l).1 := by
  rw [splitOnNL_eq_splitNL]
  exact List.dropLast_concat

theorem splitOnNL_getLastD (l : List Nat) :
    (splitOnNL l).getLastD [] = (splitNL l).2 := by
  rw [splitOnNL_eq_splitNL]
  simp [List.getLastD_eq_getLast?]

/-- Splitting distributes over concatenation: the completed lines of
`a ++ b` are those of `a` followed by those of `partial(a) ++ b`. -/
theorem splitNL_append (a b : List Nat) :
    splitNL (a ++ b)
      = ((splitNL a).1 ++ (splitNL ((splitNL a).2 ++ b)).1,
         (splitNL ((splitNL a).2 ++ b)).2) := by
  induction a with
  | nil => simp [splitNL]
  | cons c a' ih =>
    by_cases hc : c = 0x0a
    · simp only [List.cons_append, splitNL, hc, if_true]
      simp [ih]
    · simp only [List.cons_append, splitNL, hc, if_false, ite_false, List.append_eq]
      rw [ih]
      cases h1 : (splitNL a').1 with
      | nil =>
        simp only [List.nil_append]
        cases h2 : (splitNL ((splitNL a').2 ++ b)).1 with
        | nil => simp [splitNL, hc, h2]
        | cons s ss => simp [splitNL, hc, h2]
      | cons s ss => simp

theorem splitNL_no_nl (l : List Nat) :
    (∀ s ∈ (splitNL l).1, 0x0a ∉ s) ∧ 0x0a ∉ (splitNL l).2 := by
  induction l with
  | nil => simp [splitNL]
  | cons c cs ih =>
    by_cases hc : c = 0x0a
    · subst hc
      simp only [splitNL, if_true]
      refine ⟨?_, ih.2⟩
      intro s hs
      rcases List.mem_cons.mp hs with h | h
      · simp [h]
      · exact ih.1 s h
    · simp only [splitNL, hc, if_false, ite_false]
      cases h1 : (splitNL cs).1 with
      | nil =>
        refine ⟨by simp, ?_⟩
        simp only [List.mem_cons, not_or]
        exact ⟨Ne.symm hc, ih.2⟩
      | cons s ss =>
        constructor
        · intro x hx
          rcases List.mem_cons.mp hx with h | h
          · subst h
            simp only [List.mem_cons, not_or]
            exact ⟨Ne.symm hc, ih.1 s (by simp [h1])⟩
          · exact ih.1 x (by simp [h1, h])
        · exact ih.2

theorem splitNL_of_no_nl (p : List Nat) (h : 0x0a ∉ p) :
    splitNL p = ([], p) := by
  induction p with
  | nil => rfl
  | cons c cs ih =>
    simp only [List.mem_cons, not_or] at h
    have hc : ¬ c = 0x0a := fun hh => h.1 hh.symm
    simp [splitNL, hc, ih h.2]

/-- The last `n` elements of a list. -/
def lastN {α : Type} (n : Nat) (xs : List α) : List α :=
  xs.drop (xs.length - n)

theorem lastN_nil {α : Type} (n : Nat) : lastN n ([] : List α) = [] := by
  simp [lastN]

theorem length_lastN {α : Type} (n : Nat) (xs : List α) :
    (lastN n xs).length = min n xs.length := by
  simp [lastN]
  omega

theorem lastN_of_le {α : Type} {n : Nat} {xs : List α} (h : xs.length ≤ n) :
    lastN n xs = xs := by
  have : xs.length - n = 0 := by omega
  simp [lastN, this]

/-- One `appendLine` step keeps the `lines` field in last-`maxLines` form. -/
theorem appendLine_lastN (lb : LogBuffer) (C : List (List Nat)) (l : List Nat)
    (hm : 0 < lb.maxLines) (hl : lb.lines = lastN lb.maxLines C) :
    (lb.appendLine l).lines = lastN lb.maxLines (C ++ [l]) := by
  set m := lb.maxLines with hmdef
  have hlen : lb.lines.length = min m C.length := by rw [hl, length_lastN]
  by_cases hfull : m ≤ C.length
  · have hcond : m ≤ lb.lines.length := by omega
    simp only [LogBuffer.appendLine, if_pos hcond]
    rw [hl]
    have hdd : ((lastN m C).drop 1).take (m - 1) = C.drop (C.length - m + 1) := by
      rw [lastN, List.drop_drop]
      apply List.take_of_length_le
      simp
      omega
    rw [hdd, lastN]
    have harith : C.length + 1 - m ≤ C.length := by omega
    rw [List.length_append, List.length_singleton,
      List.drop_append_of_le_length harith]
    have : C.length + 1 - m = C.length - m + 1 := by omega
    rw [this]
  · have hcond : ¬ (m ≤ lb.lines.length) := by omega
    simp only [LogBuffer.appendLine, if_neg hcond]
    rw [hl, lastN_of_le (le_of_not_le hfull), lastN_of_le]
    simp
    omega

/-- Folding `appendLine` over new lines extends the last-`maxLines` form;
the partial line, capacity and subscription count are untouched. -/
theorem foldl_appendLine (L : List (List Nat)) :
    ∀ (lb : LogBuffer) (C : List (List Nat)), 0 < lb.maxLines →
      lb.lines = lastN lb.maxLines C →
      (L.foldl LogBuffer.appendLine lb).lines = lastN lb.maxLines (C ++ L)
      ∧ (L.foldl LogBuffer.appendLine lb).partialLine = lb.partialLine
      ∧ (L.foldl LogBuffer.appendLine lb).maxLines = lb.maxLines := by
  induction L with
  | nil =>
    intro lb C hm hl
    simpa using hl
  | cons x L ih =>
    intro lb C hm hl
    simp only [List.foldl_cons]
    have hstep := appendLine_lastN lb C x hm hl
    have hsame : (lb.appendLine x).maxLines = lb.maxLines := rfl
    have := ih (lb.appendLine x) (C ++ [x]) (by rw [hsame]; exact hm)
      (by rw [hsame]; exact hstep)
    rcases this with ⟨h1, h2, h3⟩
    refine ⟨?_, h2, by rw [h3, hsame]⟩
    rw [h1, hsame]
    simp

/-- State characterization of an arbitrary sequence of `Write` calls: the
completed lines are the last `maxLines` completed lines of the whole byte
stream written so far, and the partial line is the stream's trailing
fragment. -/
theorem write_fold_state (ws : List (List Nat)) :
    ∀ (lb : LogBuffer) (C : List (List Nat)), 0 < lb.maxLines →
      lb.lines = lastN lb.maxLines C → 0x0a ∉ lb.partialLine →
      (ws.foldl (fun b p => (b.Write p).1) lb).lines
          = lastN lb.maxLines (C ++ (splitNL (lb.partialLine ++ ws.flatten)).1)
      ∧ (ws.foldl (fun b p => (b.Write p).1) lb).partialLine
          = (splitNL (lb.partialLine ++ ws.flatten)).2
      ∧ (ws.foldl (fun b p => (b.Write p).1) lb).maxLines = lb.maxLines := by
  induction ws with
  | nil =>
    intro lb C hm hl hp
    rw [List.flatten_nil, List.append_nil, splitNL_of_no_nl lb.partialLine hp]
    simpa using hl
  | cons w ws ih =>
    intro lb C hm hl hp
    simp only [List.foldl_cons, List.flatten_cons]
    set D := (splitNL (lb.partialLine ++ w)).1 with hD
    set Q := (splitNL (lb.partialLine ++ w)).2 with hQ
    have hwr : ((lb.Write w).1).lines = lastN lb.maxLines (C ++ D)
        ∧ ((lb.Write w).1).partialLine = Q
        ∧ ((lb.Write w).1).maxLines = lb.maxLines := by
      simp only [LogBuffer.Write, splitOnNL_dropLast, splitOnNL_getLastD]
      have hbase := foldl_appendLine (splitNL (lb.partialLine ++ w)).1
        { lb with partialLine := [] } C hm hl
      rcases hbase with ⟨h1, h2, h3⟩
      refine ⟨h1, ?_, h3⟩
      simp only [h2]
      by_cases hq : (splitNL (lb.partialLine ++ w)).2 = []
      · simp [hq, hQ]
      · simp [hq, hQ]
    rcases hwr with ⟨hw1, hw2, hw3⟩
    have hQnl : 0x0a ∉ ((lb.Write w).1).partialLine := by
      rw [hw2, hQ]
      exact (splitNL_no_nl _).2
    have := ih ((lb.Write w).1) (C ++ D) (by rw [hw3]; exact hm)
      (by rw [hw3]; exact hw1) hQnl
    rcases this with ⟨h1, h2, h3⟩
    have hsplit : splitNL (lb.partialLine ++ (w ++ ws.flatten))
        = (D ++ (splitNL (Q ++ ws.flatten)).1, (splitNL (Q ++ ws.flatten)).2) := by
      rw [← List.append_assoc]
      rw [splitNL_append (lb.partialLine ++ w) ws.flatten]
    refine ⟨?_, ?_, by rw [h3, hw3]⟩
    · rw [h1, hw3, hw2, hsplit]
      simp [List.append_assoc]
    · rw [h2, hw2, hsplit]

/-- The specification side of C1: split the concatenation of all written
inputs on newlines, truncate to the last `m` newline-terminated lines, and
reassemble with the claim's formula `join(lines, '\n') + (partial non-empty
? '\n' + partial : "")`. -/
def specTruncatedStream (m : Nat) (s : List Nat) : List Nat :=
  List.intercalate [0x0a] (lastN m (splitOnNL s).dropLast)
    ++ (if (splitOnNL s).getLastD [] = [] then []
        else 0x0a :: (splitOnNL s).getLastD [])

theorem NewLogBuffer_maxLines_pos (m : Int) : 0 < (NewLogBuffer m).maxLines := by
  simp only [NewLogBuffer]
  split
  · simp [DefaultMaxLines]
  · next h => omega

/-- C1. Log buffer line integrity: for every finite sequence of `Write`
calls on a fresh `LogBuffer`, the reconstruction
`join(lines, '\n') + (partial non-empty ? '\n' + partial : "")` of the
buffer's completed lines and partial fragment equals the concatenation of
all written inputs, truncated to the last `MaxLines` newline-terminated
prefixes (reassembled by the same formula). -/
theorem logBuffer_line_integrity (m : Int) (ws : List (List Nat)) :
    List.intercalate [0x0a]
        (ws.foldl (fun b p => (b.Write p).1) (NewLogBuffer m)).lines
      ++ (if (ws.foldl (fun b p => (b.Write p).1) (NewLogBuffer m)).partialLine
            = [] then []
          else 0x0a ::
            (ws.foldl (fun b p => (b.Write p).1) (NewLogBuffer m)).partialLine)
      = specTruncatedStream
          (ws.foldl (fun b p => (b.Write p).1) (NewLogBuffer m)).maxLines
          ws.flatten := by
  have hm := NewLogBuffer_maxLines_pos m
  have hst := write_fold_state ws (NewLogBuffer m) [] hm
    (by simp [NewLogBuffer, lastN]) (by simp [NewLogBuffer])
  rcases hst with ⟨h1, h2, h3⟩
  have hpl : (NewLogBuffer m).partialLine = [] := rfl
  rw [hpl] at h1 h2
  simp only [List.nil_append] at h1 h2
  rw [specTruncatedStream, splitOnNL_dropLast, splitOnNL_getLastD, h3, h1, h2]

/-- An operation on a log buffer, for quantifying over call sequences. -/
inductive LogOp
  | write (p : List Nat)
  | flush

/-- Apply one operation. -/
def LogOp.apply (lb : LogBuffer) : LogOp → LogBuffer
  | .write p => (lb.Write p).1
  | .flush => lb.Flush

/-- The C5 invariant: completed lines are newline-free, so is the partial
fragment, and the ring never exceeds its positive capacity. -/
def LBInv (lb : LogBuffer) : Prop :=
  (∀ l ∈ lb.lines, 0x0a ∉ l) ∧ 0x0a ∉ lb.partialLine
  ∧ lb.lines.length ≤ lb.maxLines ∧ 0 < lb.maxLines

theorem appendLine_inv {lb : LogBuffer} {l : List Nat} (h : LBInv lb)
    (hl : 0x0a ∉ l) : LBInv (lb.appendLine l) := by
  obtain ⟨hmem, hpart, hlen, hpos⟩ := h
  refine ⟨?_, hpart, ?_, hpos⟩
  · intro x hx
    simp only [LogBuffer.appendLine] at hx
    rcases List.mem_append.mp hx with hx | hx
    · split at hx
      · have hsub : ((lb.lines.drop 1).take (lb.maxLines - 1)).Sublist lb.lines :=
          (List.take_sublist _ _).trans (List.drop_sublist _ _)
        exact hmem x (hsub.subset hx)
      · exact hmem x hx
    · simp only [List.mem_singleton] at hx
      subst hx
      exact hl
  · simp only [LogBuffer.appendLine]
    split
    · next hfull =>
      have : ((lb.lines.drop 1).take (lb.maxLines - 1)).length ≤ lb.maxLines - 1 :=
        le_trans (List.length_take_le _ _) le_rfl
      simp only [List.length_append, List.length_singleton]
      omega
    · next hfull =>
      simp only [List.length_append, List.length_singleton]
      omega

theorem foldl_appendLine_inv (L : List (List Nat)) :
    ∀ (lb : LogBuffer), LBInv lb → (∀ l ∈ L, 0x0a ∉ l) →
      LBInv (L.foldl LogBuffer.appendLine lb) := by
  induction L with
  | nil => intro lb h _; exact h
  | cons x L ih =>
    intro lb h hL
    simp only [List.foldl_cons]
    exact ih _ (appendLine_inv h (hL x (by simp)))
      (fun l hl => hL l (by simp [hl]))

theorem write_inv {lb : LogBuffer} (p : List Nat) (h : LBInv lb) :
    LBInv (lb.Write p).1 := by
  obtain ⟨hmem, hpart, hlen, hpos⟩ := h
  simp only [LogBuffer.Write, splitOnNL_dropLast, splitOnNL_getLastD]
  have hbase : LBInv { lb with partialLine := [] } :=
    ⟨hmem, by simp, hlen, hpos⟩
  have hfold := foldl_appendLine_inv (splitNL (lb.partialLine ++ p)).1
    { lb with partialLine := [] } hbase
    (fun l hl => (splitNL_no_nl _).1 l hl)
  obtain ⟨f1, f2, f3, f4⟩ := hfold
  refine ⟨f1, ?_, f3, f4⟩
  split
  · exact (splitNL_no_nl _).2
  · exact f2

theorem flush_inv {lb : LogBuffer} (h : LBInv lb) : LBInv lb.Flush := by
  simp only [LogBuffer.Flush]
  split
  · have ha := appendLine_inv h h.2.1
    exact ⟨ha.1, by simp, ha.2.2⟩
  · exact h

/-- C5. LogBuffer ring invariant: after any sequence of `Write` and `Flush`
operations on a fresh buffer, every stored completed line is newline-free
and `len(lines) ≤ maxLines`; moreover whenever any buffer is exactly full,
`appendLine` evicts exactly the oldest line before adding the new one. -/
theorem logBuffer_ring_invariant (m : Int) (ops : List LogOp) :
    (∀ l ∈ (ops.foldl LogOp.apply (NewLogBuffer m)).lines, 0x0a ∉ l)
    ∧ (ops.foldl LogOp.apply (NewLogBuffer m)).lines.length
        ≤ (ops.foldl LogOp.apply (NewLogBuffer m)).maxLines
    ∧ ∀ (lb : LogBuffer) (l : List Nat), lb.lines.length = lb.maxLines →
        (lb.appendLine l).lines = lb.lines.drop 1 ++ [l] := by
  have hstep : ∀ (ops' : List LogOp) (lb : LogBuffer), LBInv lb →
      LBInv (ops'.foldl LogOp.apply lb) := by
    intro ops'
    induction ops' with
    | nil => intro lb h; exact h
    | cons op ops' ih =>
      intro lb h
      simp only [List.foldl_cons]
      refine ih _ ?_
      cases op with
      | write p => exact write_inv p h
      | flush => exact flush_inv h
  have hnew : LBInv (NewLogBuffer m) :=
    ⟨by simp [NewLogBuffer], by simp [NewLogBuffer],
      by simp [NewLogBuffer], NewLogBuffer_maxLines_pos m⟩
  have hrun := hstep ops (NewLogBuffer m) hnew
  refine ⟨hrun.1, hrun.2.2.1, ?_⟩
  intro lb l hfull
  have hcond : lb.maxLines ≤ lb.lines.length := by omega
  simp only [LogBuffer.appendLine, if_pos hcond]
  congr 1
  apply List.take_of_length_le
  simp
  omega

/-- A full capacity-1 buffer, used to witness the eviction clause of C5. -/
def ringWitnessBuf : LogBuffer :=
  { lines := [[97]], maxLines := 1, total := 1, subs := [], partialLine := [] }

/-- C5 witness: a capacity-1 buffer fed two newline-terminated lines keeps
only the newline-free second line, and a full one-slot buffer evicts its
oldest line on append. -/
theorem logBuffer_ring_invariant_witness :
    ([98] : List Nat) ∈
      (([LogOp.write [97, 0x0a, 98, 0x0a]]).foldl LogOp.apply
        (NewLogBuffer 1)).lines
    ∧ (0x0a ∉ ([98] : List Nat))
    ∧ ringWitnessBuf.lines.length = ringWitnessBuf.maxLines
    ∧ (ringWitnessBuf.appendLine [99]).lines
        = ringWitnessBuf.lines.drop 1 ++ [[99]] :=
  ⟨by decide,
   (logBuffer_ring_invariant 1 [LogOp.write [97, 0x0a, 98, 0x0a]]).1 [98]
     (by decide),
   by decide,
   (logBuffer_ring_invariant 1 []).2.2 ringWitnessBuf [99] (by decide)⟩

/-- C6. Lossy non-blocking fan-out: `appendLine` maps each subscriber
channel independently — the line is enqueued exactly when the channel has
free capacity (256) and is dropped for that subscriber otherwise; the
registry keeps its length, so delivery to one subscriber never affects
another, and the append itself always completes. -/
theorem logBuffer_lossy_fanout (lb : LogBuffer) (line : List Nat) (i : Nat)
    (ch : List (List Nat)) (h : lb.subs[i]? = some ch) :
    (lb.appendLine line).subs[i]?
      = some (if ch.length < subChanCap then ch ++ [line] else ch)
    ∧ (lb.appendLine line).subs.length = lb.subs.length := by
  constructor
  · simp [LogBuffer.appendLine, publishLine, h]
  · simp [LogBuffer.appendLine, publishLine]

/-- A two-subscriber buffer whose second channel is already full. -/
def fanoutWitnessBuf : LogBuffer :=
  { lines := [], maxLines := 5, total := 0,
    subs := [[], List.replicate 256 []], partialLine := [] }

/-- C6 witness: with one empty and one full channel, the appended line is
delivered to the empty channel and dropped for the full one. -/
theorem logBuffer_lossy_fanout_witness :
    (fanoutWitnessBuf.subs[1]? = some (List.replicate 256 []))
    ∧ ((fanoutWitnessBuf.appendLine [97]).subs[1]?
        = some (if (List.replicate 256 ([] : List Nat)).length < subChanCap
            then List.replicate 256 ([] : List Nat) ++ [[97]]
            else List.replicate 256 [])
       ∧ (fanoutWitnessBuf.appendLine [97]).subs.length
          = fanoutWitnessBuf.subs.length) :=
  ⟨rfl, logBuffer_lossy_fanout fanoutWitnessBuf [97] 1 (List.replicate 256 []) rfl⟩

/-- Bytes of `"progress: 10%"`. -/
def progress10 : List Nat :=
  [112, 114, 111, 103, 114, 101, 115, 115, 58, 32, 49, 48, 37]

/-- Bytes of `"progress: 20%"`. -/
def progress20 : List Nat :=
  [112, 114, 111, 103, 114, 101, 115, 115, 58, 32, 50, 48, 37]

/-- Bytes of `"progress: 30%"`. -/
def progress30 : List Nat :=
  [112, 114, 111, 103, 114, 101, 115, 115, 58, 32, 51, 48, 37]

/-- Bytes of `"progress: 10%\rprogress: 20%\rprogress: 30%\n"`. -/
def progressBytes : List Nat :=
  progress10 ++ [0x0d] ++ progress20 ++ [0x0d] ++ progress30 ++ [0x0a]

theorem sanitize_progressBytes :
    sanitizeForLog progressBytes
      = progress10 ++ [0x0a] ++ progress20 ++ [0x0a] ++ progress30 ++ [0x0a] := by
  simp only [progressBytes, progress10, progress20, progress30,
    List.cons_append, List.nil_append]
  simp [sanitizeForLog_plain, sanitizeForLog_cr, sanitizeForLog_nil]

/-- C8. CR-overwrite split: feeding the bytes of
`"progress: 10%\rprogress: 20%\rprogress: 30%\n"` through the sanitizer
(which turns each standalone `\r` into a line separator) into a fresh log
buffer yields exactly the three progress lines and no partial fragment. -/
theorem crOverwrite_split :
    (((NewLogBuffer 0).Write (sanitizeForLog progressBytes)).1).lines
      = [progress10, progress20, progress30]
    ∧ (((NewLogBuffer 0).Write (sanitizeForLog progressBytes)).1).partialLine
      = [] := by
  rw [sanitize_progressBytes]
  exact ⟨by decide, by decide⟩

/-- C10. Tail edge behavior: `Tail n` is empty for `n ≤ 0`, all completed
lines when `n` is at least their number, otherwise exactly the last `n`
completed lines in order; it never depends on the partial fragment, while
`Lines` (and `Content`) append a non-empty partial fragment. -/
theorem logBuffer_tail_edges (lb : LogBuffer) (n : Int) :
    (n ≤ 0 → lb.Tail n = [])
    ∧ ((lb.lines.length : Int) ≤ n → lb.Tail n = lb.lines)
    ∧ (0 < n → n < (lb.lines.length : Int) →
        lb.Tail n = lastN n.toNat lb.lines ∧ (lb.Tail n).length = n.toNat)
    ∧ (∀ q : List Nat,
        ({ lb with partialLine := q } : LogBuffer).Tail n = lb.Tail n)
    ∧ (lb.partialLine ≠ [] → lb.Lines = lb.lines ++ [lb.partialLine]) := by
  refine ⟨?_, ?_, ?_, ?_, ?_⟩
  · intro h
    simp [LogBuffer.Tail, h]
  · intro h
    by_cases h0 : n ≤ 0
    · have : lb.lines.length = 0 := by omega
      simp [LogBuffer.Tail, h0, List.length_eq_zero.mp this]
    · simp [LogBuffer.Tail, h0, h]
  · intro h1 h2
    have h0 : ¬ n ≤ 0 := by omega
    have hlt : ¬ (lb.lines.length : Int) ≤ n := by omega
    constructor
    · simp only [LogBuffer.Tail, if_neg h0, if_neg hlt, lastN]
    · simp only [LogBuffer.Tail, if_neg h0, if_neg hlt, List.length_drop]
      omega
  · intro q
    simp [LogBuffer.Tail]
  · intro h
    simp [LogBuffer.Lines, h]

/-- A three-line buffer with a pending partial fragment, for the C10
witness. -/
def tailWitnessBuf : LogBuffer :=
  { lines := [[97], [98], [99]], maxLines := 10, total := 3, subs := [],
    partialLine := [100] }

/-- C10 witness: on a three-line buffer, `Tail (-1)` is empty, `Tail 5`
returns all lines, `Tail 2` returns the last two, and `Lines` appends the
partial fragment. -/
theorem logBuffer_tail_edges_witness :
    ((-1 : Int) ≤ 0 ∧ tailWitnessBuf.Tail (-1) = [])
    ∧ ((tailWitnessBuf.lines.length : Int) ≤ 5 ∧ tailWitnessBuf.Tail 5 = tailWitnessBuf.lines)
    ∧ ((0 : Int) < 2 ∧ (2 : Int) < (tailWitnessBuf.lines.length : Int)
        ∧ tailWitnessBuf.Tail 2 = lastN (Int.toNat 2) tailWitnessBuf.lines
        ∧ (tailWitnessBuf.Tail 2).length = Int.toNat 2)
    ∧ (tailWitnessBuf.partialLine ≠ []
        ∧ tailWitnessBuf.Lines = tailWitnessBuf.lines ++ [tailWitnessBuf.partialLine]) :=
  ⟨⟨by decide, (logBuffer_tail_edges tailWitnessBuf (-1)).1 (by decide)⟩,
   ⟨by decide, (logBuffer_tail_edges tailWitnessBuf 5).2.1 (by decide)⟩,
   ⟨by decide, by decide,
    ((logBuffer_tail_edges tailWitnessBuf 2).2.2.1 (by decide) (by decide)).1,
    ((logBuffer_tail_edges tailWitnessBuf 2).2.2.1 (by decide) (by decide)).2⟩,
   ⟨by decide, (logBuffer_tail_edges tailWitnessBuf 2).2.2.2.2 (by decide)⟩⟩

/-! ## Process manager (`manager.go`, `session.go`)

The manager is modelled as a sequential state machine.  A `ManagerState`
carries the name-keyed process map and session-descriptor files as
association lists, plus the set of OS-alive PIDs, which stands for the
kernel's response to a null signal.  Killing a process group removes the
child PID from that set (Stop waits on `done`, i.e. on `cmd.Wait`, before
returning).  Runtime-only handles (log buffer, PTY, virtual terminal,
tunnel, channels) play no role in the claims below and are omitted from
`RunningProcess`. -/

inductive ProcessStatus
  | running
  | stopped
  | error
deriving DecidableEq, Repr

structure SessionInfo where
  name : String
  pid : Int
  port : Int
  command : String
  args : List String
  extraEnv : List String
  workDir : String
  project : String
  wtName : String
  wtPath : String
  startedAt : Int
deriving DecidableEq, Repr

/-- In-memory managed process. `hasCmd` records whether `Cmd != nil`,
i.e. whether the child was spawned this run (reconnected survivors have
`hasCmd = false`). -/
structure RunningProcess where
  info : SessionInfo
  hasCmd : Bool
  status : ProcessStatus
deriving DecidableEq, Repr

structure ManagerState where
  processes : List (String × RunningProcess)
  sessionFiles : List (String × SessionInfo)
  alivePids : List Int
deriving DecidableEq, Repr

/-- Remove every binding of `name` from an association list (models Go map
`delete` and `os.Remove` of `<name>.json`, which are idempotent). -/
def eraseKey {β : Type} (name : String) (l : List (String × β)) :
    List (String × β) :=
  l.filter (fun p => p.1 != name)

theorem lookup_eraseKey_self {β : Type} (name : String)
    (l : List (String × β)) : (eraseKey name l).lookup name = none := by
  induction l with
  | nil => rfl
  | cons p l ih =>
    by_cases hp : p.1 = name
    · simp [eraseKey, hp] at ih ⊢
      exact ih
    · simp only [eraseKey, List.filter_cons] at ih ⊢
      have : (p.1 != name) = true := by simp [hp]
      rw [this]
      simp only [if_true, List.lookup]
      have : (name == p.1) = false := by
        simp [BEq.comm]
        exact fun h => hp h.symm
      rw [this]
      exact ih

theorem lookup_eraseKey_ne {β : Type} {name n : String}
    (l : List (String × β)) (h : n ≠ name) :
    (eraseKey name l).lookup n = l.lookup n := by
  induction l with
  | nil => rfl
  | cons p l ih =>
    by_cases hp : p.1 = name
    · have hb : (p.1 != name) = false := by simp [hp]
      have hn : (n == p.1) = false := by
        simp
        rw [hp]
        exact h
      simp only [eraseKey, List.filter_cons, hb, List.lookup, hn, if_false]
      simpa [eraseKey] using ih
    · have hb : (p.1 != name) = true := by simp [hp]
      simp only [eraseKey, List.filter_cons, hb, if_true, List.lookup]
      cases hnp : (n == p.1) with
      | true => rfl
      | false => simpa [eraseKey] using ih

/-- `IsProcessAlive` (`session.go`): a PID is alive iff it is positive and
the OS accepts a null signal for it (membership in the alive set; on Unix
`os.FindProcess` itself never fails). -/
def IsProcessAlive (alivePids : List Int) (pid : Int) : Bool :=
  if pid ≤ 0 then false else alivePids.contains pid

/-- `ProcessManager.Stop`: look up the process (error if absent); when the
entry was spawned this run (`Cmd != nil`) and is still running, signal the
process group with SIGTERM/SIGKILL and wait on `done` — after which the
child PID is no longer alive; finally mark it stopped, remove it from the
map and delete its session descriptor file.  For entries without a child
handle (reconnected survivors) no signal is sent. -/
def ProcessManager.Stop (st : ManagerState) (name : String) :
    Except String ManagerState :=
  match st.processes.lookup name with
  | none => .error "process not found"
  | some rp =>
    let alive' :=
      if rp.status = ProcessStatus.running ∧ rp.hasCmd then
        st.alivePids.filter (fun q => q != rp.info.pid)
      else st.alivePids
    .ok { processes := eraseKey name st.processes,
          sessionFiles := eraseKey name st.sessionFiles,
          alivePids := alive' }

/-- `ProcessManager.Start`: fail on a duplicate name; otherwise spawn the
child (the OS hands it the fresh PID `newPid` at time `startTime`), fill in
`pid`/`started_at`, persist the descriptor, and register the process as
running with a live child handle. -/
def ProcessManager.Start (newPid startTime : Int) (st : ManagerState)
    (info : SessionInfo) : Except String (ManagerState × RunningProcess) :=
  if (st.processes.lookup info.name).isSome then .error "already running"
  else
    let info' := { info with pid := newPid, startedAt := startTime }
    let rp : RunningProcess :=
      { info := info', hasCmd := true, status := ProcessStatus.running }
    .ok ({ processes := (info.name, rp) :: eraseKey info.name st.processes,
           sessionFiles :=
             (info.name, info') :: eraseKey info.name st.sessionFiles,
           alivePids := newPid :: st.alivePids }, rp)

/-- `ProcessManager.Restart`: copy the descriptor, `Stop`, then `Start`
with the same descriptor. -/
def ProcessManager.Restart (newPid startTime : Int) (st : ManagerState)
    (name : String) : Except String (ManagerState × RunningProcess) :=
  match st.processes.lookup name with
  | none => .error "process not found"
  | some rp =>
    match ProcessManager.Stop st name with
    | .error e => .error e
    | .ok st' => ProcessManager.Start newPid startTime st' rp.info

/-- One iteration of `ProcessManager.Reconnect` over a loaded descriptor:
probe the PID (against the OS-alive snapshot `alive0`); if dead, or if
`os.FindProcess` fails, remove the descriptor file and skip; otherwise
register a reconnected process (no child handle) and append it to the
returned list. -/
def reconnectStep (alive0 : List Int) (findOk : Int → Bool)
    (acc : ManagerState × List RunningProcess) (info : SessionInfo) :
    ManagerState × List RunningProcess :=
  if ¬ IsProcessAlive alive0 info.pid then
    ({ acc.1 with sessionFiles := eraseKey info.name acc.1.sessionFiles },
      acc.2)
  else if ¬ findOk info.pid then
    ({ acc.1 with sessionFiles := eraseKey info.name acc.1.sessionFiles },
      acc.2)
  else
    ({ acc.1 with processes :=
        (info.name,
          { info := info, hasCmd := false, status := ProcessStatus.running })
          :: eraseKey info.name acc.1.processes },
      acc.2 ++
        [{ info := info, hasCmd := false, status := ProcessStatus.running }])

/-- `ProcessManager.Reconnect`: load every session descriptor once, then
process each as in `reconnectStep`; return the new state and the list of
reconnected processes. -/
def ProcessManager.Reconnect (findOk : Int → Bool) (st : ManagerState) :
    ManagerState × List RunningProcess :=
  (st.sessionFiles.map (fun p => p.2)).foldl
    (reconnectStep st.alivePids findOk) (st, [])

theorem reconnectStep_fold (alive0 : List Int) (findOk : Int → Bool)
    (ss : List SessionInfo) :
    ∀ (acc : ManagerState × List RunningProcess),
      (∀ rp ∈ (ss.foldl (reconnectStep alive0 findOk) acc).2,
        rp ∈ acc.2 ∨ IsProcessAlive alive0 rp.info.pid = true)
      ∧ (∀ (n : String) (rp : RunningProcess),
          ((ss.foldl (reconnectStep alive0 findOk) acc).1).processes.lookup n
              = some rp →
            acc.1.processes.lookup n = some rp
            ∨ IsProcessAlive alive0 rp.info.pid = true)
      ∧ (∀ n : String, acc.1.sessionFiles.lookup n = none →
          ((ss.foldl (reconnectStep alive0 findOk) acc).1).sessionFiles.lookup n
            = none)
      ∧ (∀ s ∈ ss, IsProcessAlive alive0 s.pid = false →
          ((ss.foldl (reconnectStep alive0 findOk) acc).1).sessionFiles.lookup
            s.name = none) := by
  induction ss with
  | nil =>
    intro acc
    refine ⟨fun rp h => Or.inl h, fun n rp h => Or.inl h, fun n h => h, ?_⟩
    intro s hs
    simp at hs
  | cons s0 ss ih =>
    intro acc
    simp only [List.foldl_cons]
    set acc' := reconnectStep alive0 findOk acc s0 with hacc'
    obtain ⟨ih1, ih2, ih3, ih4⟩ := ih acc'
    have hstep2 : ∀ rp ∈ acc'.2,
        rp ∈ acc.2 ∨ IsProcessAlive alive0 rp.info.pid = true := by
      intro rp hrp
      rw [hacc'] at hrp
      simp only [reconnectStep] at hrp
      split at hrp
      · exact Or.inl hrp
      · split at hrp
        · exact Or.inl hrp
        · next hdead hfind =>
          rcases List.mem_append.mp hrp with h | h
          · exact Or.inl h
          · simp only [List.mem_singleton] at h
            subst h
            simp only [Decidable.not_not] at hdead
            exact Or.inr hdead
    have hstepP : ∀ (n : String) (rp : RunningProcess),
        acc'.1.processes.lookup n = some rp →
          acc.1.processes.lookup n = some rp
          ∨ IsProcessAlive alive0 rp.info.pid = true := by
      intro n rp h
      rw [hacc'] at h
      simp only [reconnectStep] at h
      split at h
      · exact Or.inl h
      · split at h
        · exact Or.inl h
        · next hdead hfind =>
          simp only [List.lookup] at h
          by_cases hn : n = s0.name
          · subst hn
            simp only [beq_self_eq_true, if_true] at h
            rw [Option.some_inj] at h
            subst h
            simp only [Decidable.not_not] at hdead
            exact Or.inr hdead
          · have : (n == s0.name) = false := by
              simp
              exact hn
            rw [this] at h
            simp only [if_false] at h
            rw [lookup_eraseKey_ne _ hn] at h
            exact Or.inl h
    have hstepF : ∀ n : String, acc.1.sessionFiles.lookup n = none →
        acc'.1.sessionFiles.lookup n = none := by
      intro n h
      rw [hacc']
      simp only [reconnectStep]
      split
      · by_cases hn : n = s0.name
        · subst hn; exact lookup_eraseKey_self _ _
        · rw [lookup_eraseKey_ne _ hn]; exact h
      · split
        · by_cases hn : n = s0.name
          · subst hn; exact lookup_eraseKey_self _ _
          · rw [lookup_eraseKey_ne _ hn]; exact h
        · exact h
    refine ⟨?_, ?_, ?_, ?_⟩
    · intro rp h
      rcases ih1 rp h with h | h
      · exact hstep2 rp h
      · exact Or.inr h
    · intro n rp h
      rcases ih2 n rp h with h | h
      · exact hstepP n rp h
      · exact Or.inr h
    · intro n h
      exact ih3 n (hstepF n h)
    · intro s hs hdead
      rcases List.mem_cons.mp hs with h | h
      · subst h
        refine ih3 s.name ?_
        rw [hacc']
        simp only [reconnectStep, IsProcessAlive] at hdead ⊢
        rw [hdead]
        simp only [Bool.false_eq_true, not_false_eq_true, if_true]
        exact lookup_eraseKey_self _ _
      · exact ih4 s h hdead

/-- C3 (amended). Stop determinism: after `Stop(name)` returns without
error, the name is absent from the process map and the session descriptor
file is gone; the child PID is guaranteed dead only for an entry spawned
this run (`Cmd != nil`) with status Running — `Stop` sends no signal to a
reconnected entry, whose PID it leaves untouched. -/
theorem stop_determinism (st : ManagerState) (name : String)
    (rp : RunningProcess) (st' : ManagerState)
    (hlook : st.processes.lookup name = some rp)
    (hstop : ProcessManager.Stop st name = Except.ok st') :
    st'.processes.lookup name = none
    ∧ st'.sessionFiles.lookup name = none
    ∧ (rp.hasCmd = true → rp.status = ProcessStatus.running →
        rp.info.pid ∉ st'.alivePids) := by
  simp only [ProcessManager.Stop, hlook] at hstop
  rw [Except.ok.injEq] at hstop
  subst hstop
  refine ⟨lookup_eraseKey_self _ _, lookup_eraseKey_self _ _, ?_⟩
  intro hcmd hrun
  simp only [hrun, hcmd, and_self, if_pos]
  intro hmem
  rw [List.mem_filter] at hmem
  simp at hmem

/-- Described session used in the manager witnesses. -/
def sessionA : SessionInfo :=
  { name := "dev-a", pid := 42, port := 3000, command := "pnpm",
    args := ["run", "dev"], extraEnv := ["PORT=3000"], workDir := "/w",
    project := "p", wtName := "main", wtPath := "/wt", startedAt := 100 }

/-- A manager holding only the reconnected (no child handle) process for
`sessionA`, whose PID 42 the OS reports alive. -/
def reconStopState : ManagerState :=
  { processes :=
      [("dev-a",
        { info := sessionA, hasCmd := false,
          status := ProcessStatus.running })],
    sessionFiles := [("dev-a", sessionA)],
    alivePids := [42] }

/-- C3 counterexample: `Stop` on a reconnected process returns without
error, yet its PID 42 is still alive afterwards — refuting the claim that
after any successful `Stop(name)` the child PID is not alive. -/
theorem stop_reconnected_leaves_pid_alive :
    ProcessManager.Stop reconStopState "dev-a"
      = Except.ok { processes := [], sessionFiles := [], alivePids := [42] }
    ∧ (42 : Int) ∈ ([42] : List Int) := by
  constructor
  · rfl
  · decide

/-- A manager holding the same session as a process spawned this run. -/
def spawnedStopState : ManagerState :=
  { processes :=
      [("dev-a",
        { info := sessionA, hasCmd := true,
          status := ProcessStatus.running })],
    sessionFiles := [("dev-a", sessionA)],
    alivePids := [42] }

/-- C3 witness: stopping the spawned running process empties the map, the
file set, and kills PID 42. -/
theorem stop_determinism_witness :
    spawnedStopState.processes.lookup "dev-a"
      = some { info := sessionA, hasCmd := true,
               status := ProcessStatus.running }
    ∧ ProcessManager.Stop spawnedStopState "dev-a"
      = Except.ok { processes := [], sessionFiles := [], alivePids := [] }
    ∧ (({ processes := [], sessionFiles := [],
          alivePids := [] } : ManagerState).processes.lookup "dev-a" = none
       ∧ ({ processes := [], sessionFiles := [],
            alivePids := [] } : ManagerState).sessionFiles.lookup "dev-a" = none
       ∧ (({ info := sessionA, hasCmd := true,
             status := ProcessStatus.running } : RunningProcess).hasCmd = true →
          ({ info := sessionA, hasCmd := true,
             status := ProcessStatus.running } : RunningProcess).status
            = ProcessStatus.running →
          sessionA.pid ∉
            ({ processes := [], sessionFiles := [],
               alivePids := [] } : ManagerState).alivePids)) :=
  ⟨by decide, by rfl,
   stop_determinism spawnedStopState "dev-a"
     { info := sessionA, hasCmd := true, status := ProcessStatus.running }
     { processes := [], sessionFiles := [], alivePids := [] }
     (by decide) (by rfl)⟩

/-- C4. Reconnect soundness: every process Reconnect registers (both those
it returns and any map entry it added) corresponds to a descriptor whose
PID passed the liveness probe, and every on-disk descriptor whose PID was
dead has had its file removed.  The hypothesis `hk` records that session
files are keyed by the descriptor's own name, as `SaveSession` writes
them. -/
theorem reconnect_soundness (findOk : Int → Bool) (st : ManagerState)
    (hk : ∀ p ∈ st.sessionFiles, p.1 = p.2.name) :
    (∀ rp ∈ (ProcessManager.Reconnect findOk st).2,
        IsProcessAlive st.alivePids rp.info.pid = true)
    ∧ (∀ (n : String) (rp : RunningProcess),
        ((ProcessManager.Reconnect findOk st).1).processes.lookup n = some rp →
          st.processes.lookup n = some rp
          ∨ IsProcessAlive st.alivePids rp.info.pid = true)
    ∧ (∀ p ∈ st.sessionFiles,
        IsProcessAlive st.alivePids p.2.pid = false →
          ((ProcessManager.Reconnect findOk st).1).sessionFiles.lookup p.1
            = none) := by
  obtain ⟨h1, h2, _h3, h4⟩ := reconnectStep_fold st.alivePids findOk
    (st.sessionFiles.map (fun p => p.2)) (st, [])
  refine ⟨?_, ?_, ?_⟩
  · intro rp hrp
    rcases h1 rp hrp with h | h
    · simp at h
    · exact h
  · exact h2
  · intro p hp hdead
    have hmem : p.2 ∈ st.sessionFiles.map (fun p => p.2) :=
      List.mem_map.mpr ⟨p, hp, rfl⟩
    have := h4 p.2 hmem hdead
    rw [hk p hp]
    exact this

/-- A descriptor store holding one live and one dead session, for the C4
witness. -/
def sessionDead : SessionInfo :=
  { name := "dev-b", pid := 77, port := 3001, command := "pnpm",
    args := ["run", "dev"], extraEnv := [], workDir := "/w2",
    project := "p2", wtName := "wt2", wtPath := "/wt2", startedAt := 50 }

/-- Manager state before reconnecting: empty map, two descriptor files,
only PID 42 alive. -/
def reconState : ManagerState :=
  { processes := [],
    sessionFiles := [("dev-a", sessionA), ("dev-b", sessionDead)],
    alivePids := [42] }

/-- C4 witness: reconnecting `reconState` registers exactly the live
session `dev-a` (42 alive), and removes the dead `dev-b` descriptor. -/
theorem reconnect_soundness_witness :
    (∀ p ∈ reconState.sessionFiles, p.1 = p.2.name)
    ∧ (∀ rp ∈ (ProcessManager.Reconnect (fun _ => true) reconState).2,
        IsProcessAlive reconState.alivePids rp.info.pid = true)
    ∧ (IsProcessAlive reconState.alivePids sessionDead.pid = false
       ∧ ((ProcessManager.Reconnect (fun _ => true) reconState).1).sessionFiles.lookup
            "dev-b" = none) :=
  ⟨by decide,
   (reconnect_soundness (fun _ => true) reconState (by decide)).1,
   by decide,
   (reconnect_soundness (fun _ => true) reconState (by decide)).2.2
     ("dev-b", sessionDead) (by decide) (by decide)⟩

/-- C9. Restart continuity: a successful `Restart(name)` yields a process
whose descriptor keeps the prior `name`, `command`, `args`, `work_dir`,
`port`, `extra_env` (and the other metadata fields) and replaces only
`pid` and `started_at` with the freshly spawned child's values; whenever
the OS hands out a PID distinct from the old one (it reassigns a freed PID
only after wraparound), the new PID differs. -/
theorem restart_continuity (newPid startTime : Int) (st : ManagerState)
    (name : String) (rp : RunningProcess) (st' : ManagerState)
    (rp' : RunningProcess)
    (hlook : st.processes.lookup name = some rp)
    (hres : ProcessManager.Restart newPid startTime st name
      = Except.ok (st', rp')) :
    rp'.info.name = rp.info.name
    ∧ rp'.info.command = rp.info.command
    ∧ rp'.info.args = rp.info.args
    ∧ rp'.info.workDir = rp.info.workDir
    ∧ rp'.info.port = rp.info.port
    ∧ rp'.info.extraEnv = rp.info.extraEnv
    ∧ rp'.info.project = rp.info.project
    ∧ rp'.info.wtName = rp.info.wtName
    ∧ rp'.info.wtPath = rp.info.wtPath
    ∧ rp'.info.pid = newPid
    ∧ rp'.info.startedAt = startTime
    ∧ (newPid ≠ rp.info.pid → rp'.info.pid ≠ rp.info.pid) := by
  simp only [ProcessManager.Restart, hlook, ProcessManager.Stop] at hres
  simp only [ProcessManager.Start] at hres
  split at hres
  · exact absurd hres (by simp)
  · rw [Except.ok.injEq, Prod.mk.injEq] at hres
    obtain ⟨_, hrp⟩ := hres
    subst hrp
    refine ⟨rfl, rfl, rfl, rfl, rfl, rfl, rfl, rfl, rfl, rfl, rfl, ?_⟩
    intro hne
    simpa using hne

/-- C9 witness: restarting the spawned `dev-a` process with fresh PID 43
at time 200 keeps every configuration field and swaps in the new PID. -/
theorem restart_continuity_witness :
    spawnedStopState.processes.lookup "dev-a"
      = some { info := sessionA, hasCmd := true,
               status := ProcessStatus.running }
    ∧ ProcessManager.Restart 43 200 spawnedStopState "dev-a"
      = Except.ok
          ({ processes :=
              [("dev-a",
                { info := { sessionA with pid := 43, startedAt := 200 },
                  hasCmd := true, status := ProcessStatus.running })],
             sessionFiles :=
              [("dev-a", { sessionA with pid := 43, startedAt := 200 })],
             alivePids := [43] },
           { info := { sessionA with pid := 43, startedAt := 200 },
             hasCmd := true, status := ProcessStatus.running })
    ∧ ({ sessionA with pid := 43, startedAt := 200 } : SessionInfo).name
        = sessionA.name
    ∧ ({ sessionA with pid := 43, startedAt := 200 } : SessionInfo).pid = 43
    ∧ ((43 : Int) ≠ sessionA.pid →
        ({ sessionA with pid := 43, startedAt := 200 } : SessionInfo).pid
          ≠ sessionA.pid) :=
  ⟨by decide, by rfl,
   (restart_continuity 43 200 spawnedStopState "dev-a"
     { info := sessionA, hasCmd := true, status := ProcessStatus.running }
     _ _ (by decide) (by rfl)).1,
   (restart_continuity 43 200 spawnedStopState "dev-a"
     { info := sessionA, hasCmd := true, status := ProcessStatus.running }
     _ _ (by decide) (by rfl)).2.2.2.2.2.2.2.2.2.1,
   (restart_continuity 43 200 spawnedStopState "dev-a"
     { info := sessionA, hasCmd := true, status := ProcessStatus.running }
     _ _ (by decide) (by rfl)).2.2.2.2.2.2.2.2.2.2.2⟩
